import Mathlib

/-!
Verification of the FileOrganiser repository's category-resolution and
synchronization engine.

The development shallowly embeds the two Python source files:
* `file_organizer.py` (extension variant): `FileOrganizer.load_categories`,
  `FileOrganizer.sync_categories`, `FileOrganizer.organise_downloads`,
  `FileOrganizer.organize_files_in_directory`.
* `file_organiser_documents.py` (keyword variant): `MappingManager.load_mapping`,
  `FileMover.move_item`, `FolderOrganizer.organize`.

Python dicts are embedded as association lists in insertion order (Python 3
dicts preserve insertion order; updating an existing key keeps its position,
inserting a new key appends at the end).  Filesystem paths are embedded as
lists of path components of already-normalized absolute paths, so that
`os.path.abspath` equality is list equality, `os.path.join` is append, and
`os.path.commonpath` is the longest common prefix.  Filesystem side effects
(directory creation, saves, moves) are reified as explicit action values.
-/

/-! ## Association lists with Python-dict semantics -/

/-- Python dict read `d[k]` / `d.get(k)`: value at the first (unique) matching key. -/
def dictGet? {α : Type} (d : List (String × α)) (k : String) : Option α :=
  match d with
  | [] => none
  | p :: rest => if p.1 = k then some p.2 else dictGet? rest k

/-- Python membership test `k in d`. -/
def dictHas {α : Type} (d : List (String × α)) (k : String) : Bool :=
  (dictGet? d k).isSome

/-- Python dict write `d[k] = v`: replace in place if the key exists
(keeping its position), otherwise append at the end (insertion order). -/
def dictSet {α : Type} (d : List (String × α)) (k : String) (v : α) : List (String × α) :=
  match d with
  | [] => [(k, v)]
  | p :: rest => if p.1 = k then (p.1, v) :: rest else p :: dictSet rest k v

/-! ## Schema data model

`file_organizer.py` stores a two-level schema: category name to
(subcategory name to list of extensions).  A loaded JSON value may be
ill-shaped at either level, which `sync_categories` tests with
`isinstance(..., dict)` and `isinstance(..., list)`; the embedding makes
the shape explicit with tagged variants. -/

/-- A JSON value sitting where a subcategory's extension list is expected:
either a list of strings (well-shaped) or anything else (opaque payload). -/
inductive SubVal : Type
  | list (exts : List String)
  | junk (payload : String)
deriving DecidableEq, Repr

/-- A JSON value sitting where a category's subcategory dict is expected. -/
inductive CatVal : Type
  | dict (subs : List (String × SubVal))
  | junk (payload : String)
deriving DecidableEq, Repr

/-- A loaded (possibly ill-shaped) schema: category name to category value. -/
abbrev SchemaR := List (String × CatVal)

/-- A well-shaped two-level schema (the shape `organise_downloads` iterates). -/
abbrev ExtSchema := List (String × List (String × List String))

/-- A keyword-variant mapping: category name to list of keywords. -/
abbrev KwSchema := List (String × List String)

/-- View a well-shaped subcategory table as loaded-schema subcategory values. -/
def toSubR (subs : List (String × List String)) : List (String × SubVal) :=
  subs.map (fun q => (q.1, SubVal.list q.2))

/-- View a well-shaped schema as a loaded schema. -/
def toSchemaR (cats : ExtSchema) : SchemaR :=
  cats.map (fun p => (p.1, CatVal.dict (toSubR p.2)))

/-- `FileOrganizer.default_categories` (file_organizer.py lines 24-50),
the built-in default schema of the extension variant. -/
def default_categories : ExtSchema :=
  [("Documents & Data",
     [("Documents", [".pdf", ".docx", ".txt", ".odt", ".rtf", ".html", ".epub", ".md", ".tex", ".bib"]),
      ("Data (CSV, XML, JSON, etc.)", [".csv", ".xml", ".json", ".yaml"])]),
   ("Development",
     [("Project", [".py", ".cpp", ".java", ".js", ".html", ".css", ".rb", ".go", ".php"])]),
   ("Executables",
     [("Installers", [".exe", ".msi"]),
      ("Scripts", [".bat", ".sh"])]),
   ("Archives",
     [("Compressed Files", [".zip", ".rar", ".tar", ".tar.gz", ".7z", ".gz"]),
      ("Backups", [".bak", ".backup"])]),
   ("Disk Image",
     [("ISO & Disk Images", [".iso", ".img"])]),
   ("Presentations",
     [("PowerPoint Files", [".pptx", ".key", ".ppt"])]),
   ("Spreadsheets",
     [("Excel and CSV Files", [".xls", ".xlsx", ".csv"])]),
   ("Other", [])]

/-- The default schema as a loaded-schema value. -/
def default_categoriesR : SchemaR := toSchemaR default_categories

/-- The default keyword mapping returned by `MappingManager.load_mapping`
(file_organiser_documents.py lines 17-25). -/
def kwDefaultMapping : KwSchema :=
  [("University", ["UOW", "Scanned Documents", "SupportingDocumentation"]),
   ("Personal", ["invitation", "21st"]),
   ("Gaming", ["Gaming", "WB Games", "Horizon Forbidden West", "My Games"]),
   ("Miscellaneous", []),
   ("Code", ["Python Scripts", "GitHub", "QtDesignStudio", "Robocode", "Visual Studio 2022"]),
   ("Software", ["Blackmagic Design", "MAXON", "Custom Office Templates"]),
   ("Backups", ["Anki Backup"])]

/-! ## Schema reconciliation (`FileOrganizer.sync_categories`, lines 131-165)

The Python loop walks the default schema's categories in order, mutating the
loaded `categories` dict in place and threading an `updated` flag.  The inner
loop (lines 148-159) walks the default subcategories of one category. -/

/-- Inner loop of `sync_categories` (lines 148-159) over the default
subcategories of one category, acting on the loaded category's subcategory
table `cd`.  A missing subcategory is inserted with the default's extension
list and sets the flag; a present subcategory whose value is not a list is
reset to the default's extension list and (as in the source) does NOT set
the flag. -/
def syncSubs (defSubs : List (String × List String)) (cd : List (String × SubVal))
    (updated : Bool) : List (String × SubVal) × Bool :=
  match defSubs with
  | [] => (cd, updated)
  | (subcategory, exts) :: rest =>
    let p : List (String × SubVal) × Bool :=
      if dictHas cd subcategory then (cd, updated)
      else (dictSet cd subcategory (SubVal.list exts), true)
    let cd2 : List (String × SubVal) :=
      match dictGet? p.1 subcategory with
      | some (SubVal.list _) => p.1
      | _ => dictSet p.1 subcategory (SubVal.list exts)
    syncSubs rest cd2 p.2

/-- Outer loop of `sync_categories` (lines 133-159) over the default schema's
categories.  A category missing from the loaded schema is inserted wholesale
from the default; a present category whose value is not a dict is reset to the
default's subcategory table; then the inner loop runs on the category's table. -/
def syncCats (defCats : ExtSchema) (cats : SchemaR) (updated : Bool) : SchemaR × Bool :=
  match defCats with
  | [] => (cats, updated)
  | (category, subs) :: rest =>
    match dictGet? cats category with
    | none => syncCats rest (dictSet cats category (CatVal.dict (toSubR subs))) true
    | some v =>
      let p : List (String × SubVal) × Bool :=
        match v with
        | CatVal.dict cd => (cd, updated)
        | _ => (toSubR subs, true)
      let q := syncSubs subs p.1 p.2
      syncCats rest (dictSet cats category (CatVal.dict q.1)) q.2

/-- `FileOrganizer.sync_categories` applied to a loaded schema: the updated
schema together with the final `updated` flag (`updated = False` initially,
line 131). -/
def sync_categories (cats : SchemaR) : SchemaR × Bool :=
  syncCats default_categories cats false

/-- The shape `sync_categories` guarantees for its output: every default
category is present and holds a dict in which every default subcategory of
that category is present and holds a list. -/
def WFFor (ds : ExtSchema) (cats : SchemaR) : Prop :=
  ∀ c subs, (c, subs) ∈ ds →
    ∃ cd, dictGet? cats c = some (CatVal.dict cd) ∧
      ∀ s e, (s, e) ∈ subs → ∃ l, dictGet? cd s = some (SubVal.list l)

/-- A persistence action of the extension variant's store. -/
inductive PAction : Type
  | save (s : SchemaR)
deriving DecidableEq, Repr

/-- Lines 162-163 of `sync_categories`: `save_categories` is called exactly
when the `updated` flag is set. -/
def sync_saves (cats : SchemaR) : List PAction :=
  if (sync_categories cats).2 then [PAction.save (sync_categories cats).1] else []

/-- `FileOrganizer.load_categories` (lines 86-99) at the level of schema
values: with a present store the loaded schema is reconciled (saving inside
`sync_categories` if it changed); with an absent store the default schema is
returned and immediately saved back (lines 94-96). -/
def load_categories (store : Option SchemaR) : SchemaR × List PAction :=
  match store with
  | some cats => ((sync_categories cats).1, sync_saves cats)
  | none => (default_categoriesR, [PAction.save default_categoriesR])

/-- `MappingManager.load_mapping` (file_organiser_documents.py lines 12-25):
with a present store the stored mapping is returned; with an absent store the
default mapping is returned.  No save is performed in either case. -/
def load_mapping (store : Option KwSchema) : KwSchema × List PAction :=
  match store with
  | some m => (m, [])
  | none => (kwDefaultMapping, [])

/-! ## Paths and name manipulation

A path is a list of components of an already-normalized absolute path. -/

/-- `os.path.basename` of a component path. -/
def basename (p : List String) : String :=
  (p.getLast?).getD ""

/-- `os.path.commonpath` of two absolute component paths: their longest
common component prefix. -/
def commonPath : List String → List String → List String
  | a :: as, b :: bs => if a = b then a :: commonPath as bs else []
  | _, _ => []

/-- Index of the last occurrence of a dot in a character list, if any. -/
def lastDotPos (cs : List Char) : Option Nat :=
  ((List.range cs.length).filter (fun i => cs.getD i ' ' = '.')).getLast?

/-- Extension part of `os.path.splitext` applied to a bare file name:
the suffix from the last dot, except when every character before that dot
is itself a dot (leading-dot names such as `.bashrc` have no extension). -/
def splitextExt (name : String) : String :=
  let cs := name.toList
  match lastDotPos cs with
  | none => ""
  | some i => if (cs.take i).all (fun c => c = '.') then "" else String.mk (cs.drop i)

/-- Python's `str.lower()`, character by character (the schema's extensions
and keywords are ASCII, where this agrees with Python). -/
def lowerStr (s : String) : String :=
  String.mk (s.toList.map Char.toLower)

/-- The lower-cased extension `organise_downloads` derives from a file path
(file_organizer.py lines 211-212). -/
def extOf (file_path : List String) : String :=
  lowerStr (splitextExt (basename file_path))

/-! ## The resolver

Extension variant: the nested loops of `organise_downloads`
(file_organizer.py lines 219-239) — first category, in schema order, one of
whose subcategory extension lists contains the file's lower-cased extension,
and within it the first such subcategory.
Keyword variant: the loop of `FolderOrganizer.organize`
(file_organiser_documents.py lines 86-92) — first category one of whose
keywords occurs, case-insensitively, inside the item name. -/

/-- Inner loop: the first subcategory whose extension list contains `ext`. -/
def findSub (subs : List (String × List String)) (ext : String) : Option String :=
  match subs with
  | [] => none
  | (s, exts) :: rest => if ext ∈ exts then some s else findSub rest ext

/-- Outer loop: the first category with a matching subcategory, paired with
that subcategory. -/
def resolveExt (cats : ExtSchema) (ext : String) : Option (String × String) :=
  match cats with
  | [] => none
  | (c, subs) :: rest =>
    match findSub subs ext with
    | some s => some (c, s)
    | none => resolveExt rest ext

/-- Python's substring test `needle in hay` on character lists. -/
def occursIn (needle hay : List Char) : Bool :=
  match hay with
  | [] => needle.isEmpty
  | _ :: rest => needle.isPrefixOf hay || occursIn needle rest

/-- `any(keyword.lower() in item.lower() for keyword in keywords)`
(file_organiser_documents.py line 87). -/
def kwMatches (keywords : List String) (item : String) : Bool :=
  keywords.any (fun k => occursIn (lowerStr k).toList (lowerStr item).toList)

/-- The keyword resolver: first category in mapping order with a matching
keyword. -/
def resolveKeyword (mapping : KwSchema) (item : String) : Option String :=
  match mapping with
  | [] => none
  | (c, kws) :: rest => if kwMatches kws item then some c else resolveKeyword rest item

/-! ## The extension-variant engine (`organise_downloads`) -/

/-- A filesystem/persistence action the extension variant performs. -/
inductive FAction : Type
  | ensureDir (p : List String)
  | save (cats : ExtSchema)
  | tryMove (src dst : List String)
deriving DecidableEq, Repr

/-- Lines 245-249 of `organise_downloads`: learning an unmatched extension.
If `"Other"` is absent it is created empty; if the extension is not yet a key
of `"Other"` it is added with an empty list. -/
def learnOther (cats : ExtSchema) (ext : String) : ExtSchema :=
  let cats1 := if dictHas cats "Other" then cats else dictSet cats "Other" []
  let otherSubs := (dictGet? cats1 "Other").getD []
  if dictHas otherSubs ext then cats1
  else dictSet cats1 "Other" (dictSet otherSubs ext [])

/-- `FileOrganizer.organise_downloads` (lines 179-265) on a well-shaped
schema: resolve the file's lower-cased extension; on a match, ensure the
category/subcategory folder and attempt the move there (the move is wrapped
in try/except in the source); on no match, learn the extension under
`"Other"`, save the schema, ensure the `"Other"` folder and attempt the move
there.  The schema result is the (possibly updated) in-memory schema. -/
def organise_downloads (folder_to_watch : List String) (cats : ExtSchema)
    (file_path : List String) : ExtSchema × List FAction :=
  let file_extension := extOf file_path
  match resolveExt cats file_extension with
  | some cs =>
    let category_path := folder_to_watch ++ [cs.1, cs.2]
    (cats, [FAction.ensureDir category_path,
            FAction.tryMove file_path (category_path ++ [basename file_path])])
  | none =>
    let cats2 := learnOther cats file_extension
    (cats2, [FAction.save cats2,
             FAction.ensureDir (folder_to_watch ++ ["Other"]),
             FAction.tryMove file_path (folder_to_watch ++ ["Other", basename file_path])])

/-- Outcome of one attempted move, under a failure oracle standing for the
OS move primitive: in the extension variant a raised move error is caught
and logged (lines 230-236 and 258-265) and the engine goes on. -/
inductive MoveOutcome : Type
  | moved
  | failedLogged
deriving DecidableEq, Repr

/-- Run the single `tryMove` of one `organise_downloads` call against the
failure oracle; the failure is absorbed into a logged outcome. -/
def moveOutcome (fails : List String → List String → Bool) (acts : List FAction) : MoveOutcome :=
  match acts.filterMap (fun a => match a with
      | FAction.tryMove s d => some (s, d)
      | _ => none) with
  | [] => MoveOutcome.moved
  | (s, d) :: _ => if fails s d then MoveOutcome.failedLogged else MoveOutcome.moved

/-- `FileOrganizer.organize_files_in_directory` (lines 299-303): one batch
pass calling `organise_downloads` on every file of the listing in order,
threading the in-memory schema; per-file move failures are caught inside
`organise_downloads`, so the fold always continues. -/
def organize_files_in_directory (folder_to_watch : List String) (cats : ExtSchema)
    (files : List String) (fails : List String → List String → Bool) :
    List (String × MoveOutcome) × ExtSchema :=
  match files with
  | [] => ([], cats)
  | f :: rest =>
    let r := organise_downloads folder_to_watch cats (folder_to_watch ++ [f])
    let r2 := organize_files_in_directory folder_to_watch r.1 rest fails
    ((f, moveOutcome fails r.2) :: r2.1, r2.2)

/-! ## The keyword-variant mover and engine -/

/-- What `FileMover.move_item` (file_organiser_documents.py lines 43-58)
decides to do, before the underlying `shutil.move` runs. -/
inductive MoveAction : Type
  | skipSelf
  | skipNested
  | perform (src dst : List String)
deriving DecidableEq, Repr

/-- `FileMover.move_item`: destination is the target folder joined with the
item's base name; if the absolute source and destination paths are equal the
move is skipped (self-move guard, lines 49-51); if the item is a directory
and the common path of source and destination is the source, the move is
skipped (folder-into-itself guard, lines 54-56); otherwise `shutil.move`
runs with no exception handling. -/
def move_item (item_path target_folder : List String) (isDir : Bool) : MoveAction :=
  let destination_path := target_folder ++ [basename item_path]
  if item_path = destination_path then MoveAction.skipSelf
  else if isDir && (commonPath item_path destination_path == item_path) then
    MoveAction.skipNested
  else MoveAction.perform item_path destination_path

/-- `MappingManager.add_category` (lines 32-36). -/
def add_category (mapping : KwSchema) (category keyword : String) : KwSchema :=
  let m1 := if dictHas mapping category then mapping else dictSet mapping category []
  dictSet m1 category (((dictGet? m1 category).getD []) ++ [keyword])

/-- `FolderOrganizer.organize` (lines 68-96) with
`handle_uncategorized_item` (lines 98-118) inlined, over a listing of
(name, is-directory) items, an interactive-classifier oracle for `input()`,
and a failure oracle for `shutil.move`.  Because `move_item` does not catch
move failures and `organize` does not either, a failing move propagates:
the run aborts with the list of items moved so far and the failing item's
name.  On success it returns the names moved and the final mapping. -/
def organizeKw (source_folder : List String) (mapping : KwSchema)
    (items : List (String × Bool)) (classify : String → String)
    (fails : List String → List String → Bool) :
    Except (List String × String) (List String × KwSchema) :=
  match items with
  | [] => Except.ok ([], mapping)
  | (item, isDir) :: rest =>
    let item_path := source_folder ++ [item]
    if isDir && dictHas mapping item then
      organizeKw source_folder mapping rest classify fails
    else
      match resolveKeyword mapping item with
      | some category =>
        match move_item item_path (source_folder ++ [category]) isDir with
        | MoveAction.perform s d =>
          if fails s d then Except.error ([], item)
          else
            match organizeKw source_folder mapping rest classify fails with
            | Except.ok (log, m) => Except.ok (item :: log, m)
            | Except.error (log, bad) => Except.error (item :: log, bad)
        | _ =>
          match organizeKw source_folder mapping rest classify fails with
          | Except.ok (log, m) => Except.ok (item :: log, m)
          | Except.error (log, bad) => Except.error (item :: log, bad)
      | none =>
        if isDir && dictHas mapping item then
          organizeKw source_folder mapping rest classify fails
        else
          let raw := classify item
          let new_category := if raw = "" then "Miscellaneous" else raw
          let mapping2 := add_category mapping new_category item
          match move_item item_path (source_folder ++ [new_category]) isDir with
          | MoveAction.perform s d =>
            if fails s d then Except.error ([], item)
            else
              match organizeKw source_folder mapping2 rest classify fails with
              | Except.ok (log, m) => Except.ok (item :: log, m)
              | Except.error (log, bad) => Except.error (item :: log, bad)
          | _ =>
            match organizeKw source_folder mapping2 rest classify fails with
            | Except.ok (log, m) => Except.ok (item :: log, m)
            | Except.error (log, bad) => Except.error (item :: log, bad)

/-! ## Heap-level model of the extension variant

Python dict objects are mutable and shared by reference.
`load_categories`' absent-file branch runs `self.default_categories.copy()`
(line 95) — a top-level (shallow) copy — so the returned schema's per-category
sub-dictionaries are the very objects of the compiled-in default.  To settle
claims about mutation of the default, the top level of a schema is embedded
as a table from category name to a reference into a heap of inner
(subcategory → extensions) dictionaries. -/

/-- A reference to an inner dictionary object. -/
abbrev Ref := Nat

/-- An inner dictionary object: subcategory name to extension list. -/
abbrev InnerDict := List (String × List String)

/-- The heap of inner dictionary objects. -/
structure Heap : Type where
  cells : List InnerDict
deriving DecidableEq, Repr

/-- Dereference. -/
def Heap.get (h : Heap) (r : Ref) : InnerDict :=
  h.cells.getD r []

/-- In-place update of one inner dictionary object. -/
def Heap.set (h : Heap) (r : Ref) (d : InnerDict) : Heap :=
  ⟨h.cells.set r d⟩

/-- Allocation of a fresh inner dictionary object. -/
def Heap.alloc (h : Heap) (d : InnerDict) : Heap × Ref :=
  (⟨h.cells ++ [d]⟩, h.cells.length)

/-- The top level of a schema object: category name to inner-dict reference. -/
abbrev TopDict := List (String × Ref)

/-- The heap after `__init__` builds `self.default_categories`: one inner
dictionary object per default category, in order. -/
def defaultHeap : Heap :=
  ⟨default_categories.map (fun p => p.2)⟩

/-- The `self.default_categories` top-level object: category `i` of the
default refers to heap cell `i`. -/
def defaultTop : TopDict :=
  (default_categories.zip (List.range default_categories.length)).map
    (fun p => (p.1.1, p.2))

/-- Read a whole schema value through the heap. -/
def derefTop (t : TopDict) (h : Heap) : ExtSchema :=
  t.map (fun p => (p.1, h.get p.2))

/-- Heap-level model of `load_categories`' absent-file branch (lines 94-96):
`self.default_categories.copy()` copies only the top-level key-to-object
table, so the result holds the same inner-dictionary references as the
default. -/
def load_categories_absentH : TopDict :=
  defaultTop.map (fun p => p)

/-- Heap-level `organise_downloads`: the resolution loops read the schema
through the heap; the unmatched branch (lines 241-251) mutates the `"Other"`
inner dictionary object in place. -/
def organise_downloadsH (folder_to_watch : List String) (cats : TopDict) (h : Heap)
    (file_path : List String) : TopDict × Heap × List FAction :=
  let file_extension := extOf file_path
  match resolveExt (derefTop cats h) file_extension with
  | some cs =>
    let category_path := folder_to_watch ++ [cs.1, cs.2]
    (cats, h, [FAction.ensureDir category_path,
               FAction.tryMove file_path (category_path ++ [basename file_path])])
  | none =>
    let p : TopDict × Heap :=
      if dictHas cats "Other" then (cats, h)
      else
        let ar := h.alloc []
        (dictSet cats "Other" ar.2, ar.1)
    let rOther := (dictGet? p.1 "Other").getD 0
    let inner := p.2.get rOther
    let h2 := if dictHas inner file_extension then p.2
              else p.2.set rOther (dictSet inner file_extension [])
    (p.1, h2, [FAction.save (derefTop p.1 h2),
               FAction.ensureDir (folder_to_watch ++ ["Other"]),
               FAction.tryMove file_path (folder_to_watch ++ ["Other", basename file_path])])

/-! ## Lemmas about the dict operations -/

theorem dictGet_set_self {α : Type} (d : List (String × α)) (k : String) (v : α) :
    dictGet? (dictSet d k v) k = some v := by
  induction d with
  | nil => simp [dictSet, dictGet?]
  | cons p rest ih =>
    by_cases h : p.1 = k
    · simp [dictSet, dictGet?, h]
    · simp [dictSet, dictGet?, h, ih]

theorem dictGet_set_ne {α : Type} (d : List (String × α)) {k' k : String} (v : α)
    (h : k' ≠ k) : dictGet? (dictSet d k' v) k = dictGet? d k := by
  induction d with
  | nil => simp [dictSet, dictGet?, h]
  | cons p rest ih =>
    by_cases hp : p.1 = k'
    · have hpk : p.1 ≠ k := by rw [hp]; exact h
      simp [dictSet, dictGet?, hp, hpk, h]
    · simp [dictSet, dictGet?, hp, ih]

theorem dictGet_set_isSome {α : Type} (d : List (String × α)) (k k' : String) (v : α)
    (h : (dictGet? d k).isSome) : (dictGet? (dictSet d k' v) k).isSome := by
  by_cases hk : k' = k
  · subst hk; simp [dictGet_set_self]
  · rw [dictGet_set_ne d v hk]; exact h

theorem dictSet_mem {α : Type} {d : List (String × α)} {k : String} {v : α} {p : String × α}
    (h : p ∈ dictSet d k v) : p.2 = v ∨ p ∈ d := by
  induction d with
  | nil =>
    simp [dictSet] at h
    subst h; left; rfl
  | cons q rest ih =>
    by_cases hq : q.1 = k
    · simp [dictSet, hq] at h
      rcases h with h | h
      · left; rw [h]
      · right; exact List.mem_cons_of_mem _ h
    · simp [dictSet, hq] at h
      rcases h with h | h
      · right; rw [h]; exact List.mem_cons_self _ _
      · rcases ih h with h' | h'
        · left; exact h'
        · right; exact List.mem_cons_of_mem _ h'

theorem dictSet_self_eq {α : Type} {d : List (String × α)} {k : String} {v : α}
    (h : dictGet? d k = some v) : dictSet d k v = d := by
  induction d with
  | nil => simp [dictGet?] at h
  | cons p rest ih =>
    obtain ⟨a, b⟩ := p
    by_cases hp : a = k
    · simp [dictGet?, hp] at h
      simp [dictSet, hp, ← h]
    · simp [dictGet?, hp] at h
      simp [dictSet, hp, ih h]

theorem dictGet?_mem {α : Type} {d : List (String × α)} {k : String} {v : α}
    (h : dictGet? d k = some v) : (k, v) ∈ d := by
  induction d with
  | nil => simp [dictGet?] at h
  | cons p rest ih =>
    by_cases hp : p.1 = k
    · simp [dictGet?, hp] at h
      rw [← hp, ← h]
      exact List.mem_cons_self _ _
    · simp [dictGet?, hp] at h
      exact List.mem_cons_of_mem _ (ih h)


/-! ## Lemmas about the resolver -/

theorem findSub_none_iff {subs : List (String × List String)} {e : String} :
    findSub subs e = none ↔ ∀ s exts, (s, exts) ∈ subs → e ∉ exts := by
  induction subs with
  | nil => simp [findSub]
  | cons p rest ih =>
    obtain ⟨s0, exts0⟩ := p
    by_cases he : e ∈ exts0
    · simp only [findSub, if_pos he]
      constructor
      · intro h; simp at h
      · intro h
        exact absurd he (h s0 exts0 (List.mem_cons_self _ _))
    · simp only [findSub, if_neg he]
      rw [ih]
      constructor
      · intro h s exts hmem
        rcases List.mem_cons.mp hmem with heq | hmem2
        · simp only [Prod.mk.injEq] at heq
          obtain ⟨rfl, rfl⟩ := heq
          exact he
        · exact h s exts hmem2
      · intro h s exts hmem
        exact h s exts (List.mem_cons_of_mem _ hmem)

theorem findSub_some_first {subs : List (String × List String)} {e s : String}
    (h : findSub subs e = some s) :
    ∃ pre exts post, subs = pre ++ (s, exts) :: post ∧ e ∈ exts ∧
      ∀ s' exts', (s', exts') ∈ pre → e ∉ exts' := by
  induction subs with
  | nil => simp [findSub] at h
  | cons p rest ih =>
    obtain ⟨s0, exts0⟩ := p
    by_cases he : e ∈ exts0
    · have hs : s0 = s := by simpa [findSub, he] using h
      subst hs
      exact ⟨[], exts0, rest, by simp, he, by simp⟩
    · have h' : findSub rest e = some s := by simpa [findSub, he] using h
      obtain ⟨pre, exts, post, heq, hmem, hpre⟩ := ih h'
      refine ⟨(s0, exts0) :: pre, exts, post, by simp [heq], hmem, ?_⟩
      intro s' exts' hm
      rcases List.mem_cons.mp hm with heq2 | hm2
      · simp only [Prod.mk.injEq] at heq2
        obtain ⟨rfl, rfl⟩ := heq2
        exact he
      · exact hpre s' exts' hm2

theorem resolveExt_some_first {cats : ExtSchema} {e c s : String}
    (h : resolveExt cats e = some (c, s)) :
    ∃ pre subs post, cats = pre ++ (c, subs) :: post ∧
      (∀ c' subs', (c', subs') ∈ pre → findSub subs' e = none) ∧
      findSub subs e = some s := by
  induction cats with
  | nil => simp [resolveExt] at h
  | cons p rest ih =>
    obtain ⟨c0, subs0⟩ := p
    cases hf : findSub subs0 e with
    | some s0 =>
      have hcs : c0 = c ∧ s0 = s := by
        have h2 := h
        simp [resolveExt, hf] at h2
        exact h2
      obtain ⟨rfl, rfl⟩ := hcs
      exact ⟨[], subs0, rest, by simp, by simp, hf⟩
    | none =>
      have h' : resolveExt rest e = some (c, s) := by simpa [resolveExt, hf] using h
      obtain ⟨pre, subs, post, heq, hpre, hm⟩ := ih h'
      refine ⟨(c0, subs0) :: pre, subs, post, by simp [heq], ?_, hm⟩
      intro c' subs' hmem
      rcases List.mem_cons.mp hmem with heq2 | hm2
      · simp only [Prod.mk.injEq] at heq2
        obtain ⟨rfl, rfl⟩ := heq2
        exact hf
      · exact hpre c' subs' hm2

theorem resolveExt_none_iff {cats : ExtSchema} {e : String} :
    resolveExt cats e = none ↔ ∀ c subs, (c, subs) ∈ cats → findSub subs e = none := by
  induction cats with
  | nil => simp [resolveExt]
  | cons p rest ih =>
    obtain ⟨c0, subs0⟩ := p
    cases hf : findSub subs0 e with
    | some s0 =>
      simp only [resolveExt, hf]
      constructor
      · intro h; simp at h
      · intro h
        have := h c0 subs0 (List.mem_cons_self _ _)
        rw [hf] at this
        simp at this
    | none =>
      simp only [resolveExt, hf]
      rw [ih]
      constructor
      · intro h c subs hmem
        rcases List.mem_cons.mp hmem with heq | hm2
        · simp only [Prod.mk.injEq] at heq
          obtain ⟨rfl, rfl⟩ := heq
          exact hf
        · exact h c subs hm2
      · intro h c subs hmem
        exact h c subs (List.mem_cons_of_mem _ hmem)

theorem resolveKeyword_some_first {mapping : KwSchema} {item c : String}
    (h : resolveKeyword mapping item = some c) :
    ∃ pre kws post, mapping = pre ++ (c, kws) :: post ∧
      kwMatches kws item = true ∧
      (∀ c' kws', (c', kws') ∈ pre → kwMatches kws' item = false) := by
  induction mapping with
  | nil => simp [resolveKeyword] at h
  | cons p rest ih =>
    obtain ⟨c0, kws0⟩ := p
    by_cases hk : kwMatches kws0 item
    · have hc : c0 = c := by simpa [resolveKeyword, hk] using h
      subst hc
      exact ⟨[], kws0, rest, by simp, hk, by simp⟩
    · have h' : resolveKeyword rest item = some c := by simpa [resolveKeyword, hk] using h
      obtain ⟨pre, kws, post, heq, hm, hpre⟩ := ih h'
      refine ⟨(c0, kws0) :: pre, kws, post, by simp [heq], hm, ?_⟩
      intro c' kws' hmem
      rcases List.mem_cons.mp hmem with heq2 | hm2
      · simp only [Prod.mk.injEq] at heq2
        obtain ⟨rfl, rfl⟩ := heq2
        exact eq_false_of_ne_true hk
      · exact hpre c' kws' hm2

theorem findSub_dictSet_empty {subs : List (String × List String)} {e : String}
    (h : findSub subs e = none) : findSub (dictSet subs e []) e = none := by
  induction subs with
  | nil => simp [dictSet, findSub]
  | cons p rest ih =>
    obtain ⟨s0, exts0⟩ := p
    have h1 : e ∉ exts0 := by
      intro hmem
      simp [findSub, hmem] at h
    have h2 : findSub rest e = none := by simpa [findSub, h1] using h
    by_cases hs : s0 = e
    · subst hs
      simp [dictSet, findSub, h2]
    · simp [dictSet, hs, findSub, h1, ih h2]

/-! ## Lemmas about reconciliation -/

theorem syncSubs_keeps_list {ds : List (String × List String)} {cd : List (String × SubVal)}
    {u : Bool} {s : String} {l : List String}
    (h : dictGet? cd s = some (SubVal.list l)) :
    dictGet? (syncSubs ds cd u).1 s = some (SubVal.list l) := by
  induction ds generalizing cd u with
  | nil => simpa [syncSubs] using h
  | cons q rest ih =>
    obtain ⟨s0, e0⟩ := q
    by_cases hs : s0 = s
    · subst hs
      have hhas : dictHas cd s0 = true := by simp [dictHas, h]
      simp only [syncSubs, hhas, if_true, h]
      exact ih h
    · cases hhas : dictHas cd s0 with
      | true =>
        cases hv : dictGet? cd s0 with
        | none => simp [dictHas, hv] at hhas
        | some sv =>
          cases sv with
          | list l0 =>
            simp only [syncSubs, hhas, if_true, hv]
            exact ih h
          | junk j =>
            simp only [syncSubs, hhas, if_true, hv]
            exact ih (by rw [dictGet_set_ne _ _ hs]; exact h)
      | false =>
        have hget : dictGet? (dictSet cd s0 (SubVal.list e0)) s0 = some (SubVal.list e0) :=
          dictGet_set_self _ _ _
        simp only [syncSubs, hhas, if_false, Bool.false_eq_true, hget]
        exact ih (by rw [dictGet_set_ne _ _ hs]; exact h)

theorem syncSubs_keeps_some {ds : List (String × List String)} {cd : List (String × SubVal)}
    {u : Bool} {s : String}
    (h : (dictGet? cd s).isSome) :
    (dictGet? (syncSubs ds cd u).1 s).isSome := by
  induction ds generalizing cd u with
  | nil => simpa [syncSubs] using h
  | cons q rest ih =>
    obtain ⟨s0, e0⟩ := q
    cases hhas : dictHas cd s0 with
    | true =>
      cases hv : dictGet? cd s0 with
      | none => simp [dictHas, hv] at hhas
      | some sv =>
        cases sv with
        | list l0 =>
          simp only [syncSubs, hhas, if_true, hv]
          exact ih h
        | junk j =>
          simp only [syncSubs, hhas, if_true, hv]
          exact ih (dictGet_set_isSome _ _ _ _ h)
    | false =>
      have hget : dictGet? (dictSet cd s0 (SubVal.list e0)) s0 = some (SubVal.list e0) :=
        dictGet_set_self _ _ _
      simp only [syncSubs, hhas, if_false, Bool.false_eq_true, hget]
      exact ih (dictGet_set_isSome _ _ _ _ h)

theorem syncSubs_adds {ds : List (String × List String)} {cd : List (String × SubVal)}
    {u : Bool} {s : String} {e : List String}
    (hmem : (s, e) ∈ ds) :
    ∃ l, dictGet? (syncSubs ds cd u).1 s = some (SubVal.list l) := by
  induction ds generalizing cd u with
  | nil => simp at hmem
  | cons q rest ih =>
    obtain ⟨s0, e0⟩ := q
    rcases List.mem_cons.mp hmem with heq | hm2
    · simp only [Prod.mk.injEq] at heq
      obtain ⟨rfl, rfl⟩ := heq
      cases hhas : dictHas cd s with
      | true =>
        cases hv : dictGet? cd s with
        | none => simp [dictHas, hv] at hhas
        | some sv =>
          cases sv with
          | list l0 =>
            simp only [syncSubs, hhas, if_true, hv]
            exact ⟨l0, syncSubs_keeps_list hv⟩
          | junk j =>
            simp only [syncSubs, hhas, if_true, hv]
            exact ⟨e, syncSubs_keeps_list (dictGet_set_self _ _ _)⟩
      | false =>
        have hget : dictGet? (dictSet cd s (SubVal.list e)) s = some (SubVal.list e) :=
          dictGet_set_self _ _ _
        simp only [syncSubs, hhas, if_false, Bool.false_eq_true, hget]
        exact ⟨e, syncSubs_keeps_list hget⟩
    · cases hhas : dictHas cd s0 with
      | true =>
        cases hv : dictGet? cd s0 with
        | none => simp [dictHas, hv] at hhas
        | some sv =>
          cases sv with
          | list l0 =>
            simp only [syncSubs, hhas, if_true, hv]
            exact ih hm2
          | junk j =>
            simp only [syncSubs, hhas, if_true, hv]
            exact ih hm2
      | false =>
        have hget : dictGet? (dictSet cd s0 (SubVal.list e0)) s0 = some (SubVal.list e0) :=
          dictGet_set_self _ _ _
        simp only [syncSubs, hhas, if_false, Bool.false_eq_true, hget]
        exact ih hm2

theorem syncSubs_fix {ds : List (String × List String)} {cd : List (String × SubVal)}
    {u : Bool}
    (h : ∀ s e, (s, e) ∈ ds → ∃ l, dictGet? cd s = some (SubVal.list l)) :
    syncSubs ds cd u = (cd, u) := by
  induction ds with
  | nil => rfl
  | cons q rest ih =>
    obtain ⟨s0, e0⟩ := q
    obtain ⟨l, hl⟩ := h s0 e0 (List.mem_cons_self _ _)
    have hhas : dictHas cd s0 = true := by simp [dictHas, hl]
    simp only [syncSubs, hhas, if_true, hl]
    exact ih (fun s e hm => h s e (List.mem_cons_of_mem _ hm))

theorem syncCats_keeps_some {ds : ExtSchema} {cats : SchemaR} {u : Bool} {c : String}
    (h : (dictGet? cats c).isSome) :
    (dictGet? (syncCats ds cats u).1 c).isSome := by
  induction ds generalizing cats u with
  | nil => simpa [syncCats] using h
  | cons q rest ih =>
    obtain ⟨c0, subs0⟩ := q
    cases hv : dictGet? cats c0 with
    | none =>
      simp only [syncCats, hv]
      exact ih (dictGet_set_isSome _ _ _ _ h)
    | some v =>
      cases v with
      | dict cd =>
        simp only [syncCats, hv]
        exact ih (dictGet_set_isSome _ _ _ _ h)
      | junk j =>
        simp only [syncCats, hv]
        exact ih (dictGet_set_isSome _ _ _ _ h)

theorem syncCats_keeps_dict {ds : ExtSchema} {cats : SchemaR} {u : Bool} {c : String}
    {cd : List (String × SubVal)}
    (h : dictGet? cats c = some (CatVal.dict cd)) :
    ∃ cd', dictGet? (syncCats ds cats u).1 c = some (CatVal.dict cd') ∧
      (∀ s, (dictGet? cd s).isSome → (dictGet? cd' s).isSome) ∧
      (∀ s l, dictGet? cd s = some (SubVal.list l) → dictGet? cd' s = some (SubVal.list l)) := by
  induction ds generalizing cats u cd with
  | nil => exact ⟨cd, by simpa [syncCats] using h, fun _ hs => hs, fun _ _ hs => hs⟩
  | cons q rest ih =>
    obtain ⟨c0, subs0⟩ := q
    by_cases hc : c0 = c
    · subst hc
      simp only [syncCats, h]
      have h2 : dictGet? (dictSet cats c0 (CatVal.dict (syncSubs subs0 cd u).1)) c0
          = some (CatVal.dict (syncSubs subs0 cd u).1) := dictGet_set_self _ _ _
      obtain ⟨cd', hg, hsome, hlist⟩ := ih h2
      exact ⟨cd', hg, fun s hs => hsome s (syncSubs_keeps_some hs),
             fun s l hl => hlist s l (syncSubs_keeps_list hl)⟩
    · cases hv : dictGet? cats c0 with
      | none =>
        simp only [syncCats, hv]
        exact ih (by rw [dictGet_set_ne _ _ hc]; exact h)
      | some v =>
        cases v with
        | dict cd0 =>
          simp only [syncCats, hv]
          exact ih (by rw [dictGet_set_ne _ _ hc]; exact h)
        | junk j =>
          simp only [syncCats, hv]
          exact ih (by rw [dictGet_set_ne _ _ hc]; exact h)

theorem toSubR_get {subs : List (String × List String)} {s : String} {e : List String}
    (hmem : (s, e) ∈ subs) :
    ∃ l, dictGet? (toSubR subs) s = some (SubVal.list l) := by
  induction subs with
  | nil => simp at hmem
  | cons q rest ih =>
    obtain ⟨s0, e0⟩ := q
    by_cases hs : s0 = s
    · subst hs
      exact ⟨e0, by simp [toSubR, dictGet?]⟩
    · rcases List.mem_cons.mp hmem with heq | hm2
      · simp only [Prod.mk.injEq] at heq
        obtain ⟨rfl, rfl⟩ := heq
        exact absurd rfl hs
      · obtain ⟨l, hl⟩ := ih hm2
        refine ⟨l, ?_⟩
        simp only [toSubR, List.map_cons, dictGet?, hs, if_false]
        exact hl

theorem syncCats_establishes (ds : ExtSchema) (cats : SchemaR) (u : Bool) :
    WFFor ds (syncCats ds cats u).1 := by
  induction ds generalizing cats u with
  | nil => intro c subs hmem; simp at hmem
  | cons q rest ih =>
    obtain ⟨c0, subs0⟩ := q
    intro c subs hmem
    rcases List.mem_cons.mp hmem with heq | hm2
    · simp only [Prod.mk.injEq] at heq
      obtain ⟨rfl, rfl⟩ := heq
      cases hv : dictGet? cats c with
      | none =>
        simp only [syncCats, hv]
        have h2 : dictGet? (dictSet cats c (CatVal.dict (toSubR subs))) c
            = some (CatVal.dict (toSubR subs)) := dictGet_set_self _ _ _
        obtain ⟨cd', hg, hsome, hlist⟩ := syncCats_keeps_dict h2
        refine ⟨cd', hg, fun s e hm => ?_⟩
        obtain ⟨l, hl⟩ := toSubR_get hm
        exact ⟨l, hlist s l hl⟩
      | some v =>
        cases v with
        | dict cd0 =>
          simp only [syncCats, hv]
          have h2 : dictGet? (dictSet cats c (CatVal.dict (syncSubs subs cd0 u).1)) c
              = some (CatVal.dict (syncSubs subs cd0 u).1) := dictGet_set_self _ _ _
          obtain ⟨cd', hg, hsome, hlist⟩ := syncCats_keeps_dict h2
          refine ⟨cd', hg, fun s e hm => ?_⟩
          obtain ⟨l, hl⟩ := syncSubs_adds hm
          exact ⟨l, hlist s l hl⟩
        | junk j =>
          simp only [syncCats, hv]
          have h2 : dictGet? (dictSet cats c (CatVal.dict (syncSubs subs (toSubR subs) true).1)) c
              = some (CatVal.dict (syncSubs subs (toSubR subs) true).1) := dictGet_set_self _ _ _
          obtain ⟨cd', hg, hsome, hlist⟩ := syncCats_keeps_dict h2
          refine ⟨cd', hg, fun s e hm => ?_⟩
          obtain ⟨l, hl⟩ := syncSubs_adds hm
          exact ⟨l, hlist s l hl⟩
    · cases hv : dictGet? cats c0 with
      | none =>
        simp only [syncCats, hv]
        exact ih _ _ c subs hm2
      | some v =>
        cases v with
        | dict cd0 =>
          simp only [syncCats, hv]
          exact ih _ _ c subs hm2
        | junk j =>
          simp only [syncCats, hv]
          exact ih _ _ c subs hm2

theorem syncCats_fix {ds : ExtSchema} {cats : SchemaR} {u : Bool}
    (h : WFFor ds cats) : syncCats ds cats u = (cats, u) := by
  induction ds with
  | nil => rfl
  | cons q rest ih =>
    obtain ⟨c0, subs0⟩ := q
    obtain ⟨cd, hg, hgood⟩ := h c0 subs0 (List.mem_cons_self _ _)
    simp only [syncCats, hg]
    rw [syncSubs_fix hgood]
    dsimp only
    rw [dictSet_self_eq hg]
    exact ih (fun c subs hm => h c subs (List.mem_cons_of_mem _ hm))

/-! ## Lemmas about learning an unmatched extension -/

theorem learnOther_get (cats : ExtSchema) (e : String) :
    ∃ subs, dictGet? (learnOther cats e) "Other" = some subs ∧
      dictGet? subs e = some ((dictGet? ((dictGet? cats "Other").getD []) e).getD []) := by
  cases hv : dictGet? cats "Other" with
  | none =>
    have hhas : dictHas cats "Other" = false := by simp [dictHas, hv]
    have hres : learnOther cats e = dictSet (dictSet cats "Other" []) "Other" (dictSet [] e []) := by
      simp [learnOther, hhas, hv, dictGet_set_self, dictHas, dictGet?]
    refine ⟨dictSet [] e [], ?_, ?_⟩
    · rw [hres]; exact dictGet_set_self _ _ _
    · simp [dictSet, dictGet?, hv]
  | some subs0 =>
    have hhas : dictHas cats "Other" = true := by simp [dictHas, hv]
    cases he : dictHas subs0 e with
    | true =>
      have hres : learnOther cats e = cats := by simp [learnOther, hhas, hv, he]
      cases hge : dictGet? subs0 e with
      | none => simp [dictHas, hge] at he
      | some v0 =>
        refine ⟨subs0, ?_, ?_⟩
        · rw [hres]; exact hv
        · simp [hv, hge]
    | false =>
      have hres : learnOther cats e = dictSet cats "Other" (dictSet subs0 e []) := by
        simp [learnOther, hhas, hv, he]
      refine ⟨dictSet subs0 e [], ?_, ?_⟩
      · rw [hres]; exact dictGet_set_self _ _ _
      · have hge : dictGet? subs0 e = none := by
          cases hx : dictGet? subs0 e with
          | none => rfl
          | some v0 => simp [dictHas, hx] at he
        simp [dictGet_set_self, hv, hge]

theorem resolveExt_learnOther_none {cats : ExtSchema} {e : String}
    (h : resolveExt cats e = none) :
    resolveExt (learnOther cats e) e = none := by
  rw [resolveExt_none_iff]
  intro c subs hmem
  have hall := resolveExt_none_iff.mp h
  cases hv : dictGet? cats "Other" with
  | none =>
    have hhas : dictHas cats "Other" = false := by simp [dictHas, hv]
    have hres : learnOther cats e = dictSet (dictSet cats "Other" []) "Other" (dictSet [] e []) := by
      simp [learnOther, hhas, hv, dictGet_set_self, dictHas, dictGet?]
    rw [hres] at hmem
    rcases dictSet_mem hmem with h1 | h1
    · have hs : subs = dictSet [] e [] := h1
      rw [hs]
      simp [dictSet, findSub]
    · rcases dictSet_mem h1 with h2 | h2
      · have hs : subs = [] := h2
        rw [hs]
        simp [findSub]
      · exact hall c subs h2
  | some subs0 =>
    have hfs0 : findSub subs0 e = none := hall "Other" subs0 (dictGet?_mem hv)
    have hhas : dictHas cats "Other" = true := by simp [dictHas, hv]
    cases he : dictHas subs0 e with
    | true =>
      have hres : learnOther cats e = cats := by simp [learnOther, hhas, hv, he]
      rw [hres] at hmem
      exact hall c subs hmem
    | false =>
      have hres : learnOther cats e = dictSet cats "Other" (dictSet subs0 e []) := by
        simp [learnOther, hhas, hv, he]
      rw [hres] at hmem
      rcases dictSet_mem hmem with h1 | h1
      · have hs : subs = dictSet subs0 e [] := h1
        rw [hs]
        exact findSub_dictSet_empty hfs0
      · exact hall c subs h1

theorem organise_downloads_unmatched_eq (folder_to_watch : List String) (cats : ExtSchema)
    (file_path : List String) (h : resolveExt cats (extOf file_path) = none) :
    organise_downloads folder_to_watch cats file_path
      = (learnOther cats (extOf file_path),
         [FAction.save (learnOther cats (extOf file_path)),
          FAction.ensureDir (folder_to_watch ++ ["Other"]),
          FAction.tryMove file_path (folder_to_watch ++ ["Other", basename file_path])]) := by
  simp [organise_downloads, h]

/-! ## Claim theorems -/

/-- Claim C1 (code evaluated at the failing input): the default schema lists
`.iso` under `Disk Image / ISO & Disk Images`, yet reconciling a loaded
schema whose `Disk Image` category already holds `ISO & Disk Images` as an
(empty) list leaves that list untouched — `sync_categories` never merges the
default's extensions into an existing list-shaped subcategory, so the result
is not a superset of the default's extension entries. -/
theorem sync_categories_drops_default_extensions :
    dictGet? default_categories "Disk Image" = some [("ISO & Disk Images", [".iso", ".img"])] ∧
    dictGet? (sync_categories
        [("Disk Image", CatVal.dict [("ISO & Disk Images", SubVal.list [])])]).1 "Disk Image"
      = some (CatVal.dict [("ISO & Disk Images", SubVal.list [])]) := by
  exact ⟨rfl, rfl⟩

/-- Claim C2: reconciliation against the built-in default schema is
idempotent — reconciling the schema returned by a first reconciliation
reports `updated = false`, triggers no save, and returns the schema
unchanged. -/
theorem sync_categories_idempotent (L : SchemaR) :
    sync_categories ((sync_categories L).1) = ((sync_categories L).1, false) ∧
    sync_saves ((sync_categories L).1) = [] := by
  have h1 : sync_categories ((sync_categories L).1) = ((sync_categories L).1, false) :=
    syncCats_fix (syncCats_establishes default_categories L false)
  refine ⟨h1, ?_⟩
  simp [sync_saves, h1]

/-- Claim C3: reconciliation preserves all well-shaped entries of the loaded
schema — every category of `L` stays present, and for a category holding a
dict, every subcategory stays present and every list-shaped subcategory
keeps its extension list exactly. -/
theorem sync_categories_preserves_loaded (L : SchemaR) (c : String) (v : CatVal)
    (h : dictGet? L c = some v) :
    (dictGet? (sync_categories L).1 c).isSome ∧
    (∀ cd, v = CatVal.dict cd →
      ∃ cd', dictGet? (sync_categories L).1 c = some (CatVal.dict cd') ∧
        (∀ s, (dictGet? cd s).isSome → (dictGet? cd' s).isSome) ∧
        (∀ s l, dictGet? cd s = some (SubVal.list l) →
          dictGet? cd' s = some (SubVal.list l))) := by
  constructor
  · exact syncCats_keeps_some (by simp [h])
  · rintro cd rfl
    exact syncCats_keeps_dict h

/-- Witness for C3 at a concrete user-added category. -/
theorem sync_categories_preserves_loaded_witness :
    (dictGet? (sync_categories
        [("My Projects", CatVal.dict [("Drafts", SubVal.list [".draft"])])]).1 "My Projects").isSome ∧
    (∀ cd, CatVal.dict [("Drafts", SubVal.list [".draft"])] = CatVal.dict cd →
      ∃ cd', dictGet? (sync_categories
          [("My Projects", CatVal.dict [("Drafts", SubVal.list [".draft"])])]).1 "My Projects"
            = some (CatVal.dict cd') ∧
        (∀ s, (dictGet? cd s).isSome → (dictGet? cd' s).isSome) ∧
        (∀ s l, dictGet? cd s = some (SubVal.list l) →
          dictGet? cd' s = some (SubVal.list l))) :=
  sync_categories_preserves_loaded _ "My Projects" _ rfl

/-- Claim C4: both resolvers are first-match, not best-match — if the
extension resolver answers `(c, s)` then every category before `c` in schema
order has no subcategory list containing the extension and every subcategory
before `s` inside `c` does not contain it; if the keyword resolver answers
`c` then every category before `c` has no matching keyword. -/
theorem resolver_first_match :
    (∀ (cats : ExtSchema) (e c s : String), resolveExt cats e = some (c, s) →
      ∃ pre subs post spre exts spost,
        cats = pre ++ (c, subs) :: post ∧
        subs = spre ++ (s, exts) :: spost ∧
        e ∈ exts ∧
        (∀ c' subs', (c', subs') ∈ pre → findSub subs' e = none) ∧
        (∀ s' exts', (s', exts') ∈ spre → e ∉ exts')) ∧
    (∀ (mapping : KwSchema) (item c : String), resolveKeyword mapping item = some c →
      ∃ pre kws post,
        mapping = pre ++ (c, kws) :: post ∧
        kwMatches kws item = true ∧
        (∀ c' kws', (c', kws') ∈ pre → kwMatches kws' item = false)) := by
  constructor
  · intro cats e c s h
    obtain ⟨pre, subs, post, heq, hpre, hfs⟩ := resolveExt_some_first h
    obtain ⟨spre, exts, spost, heq2, hmem, hspre⟩ := findSub_some_first hfs
    exact ⟨pre, subs, post, spre, exts, spost, heq, heq2, hmem, hpre, hspre⟩
  · intro mapping item c h
    exact resolveKeyword_some_first h

/-- Witness for C4 at schemas whose first matching category is not the
alphabetically first. -/
theorem resolver_first_match_witness :
    (∃ pre subs post spre exts spost,
        ([("Zebra", [("Zsub", [".q"])]), ("Alpha", [("Asub", [".q"])])] : ExtSchema)
          = pre ++ ("Zebra", subs) :: post ∧
        subs = spre ++ ("Zsub", exts) :: spost ∧
        ".q" ∈ exts ∧
        (∀ c' subs', (c', subs') ∈ pre → findSub subs' ".q" = none) ∧
        (∀ s' exts', (s', exts') ∈ spre → ".q" ∉ exts')) ∧
    (∃ pre kws post,
        ([("Zulu", ["report"]), ("Alpha", ["report"])] : KwSchema)
          = pre ++ ("Zulu", kws) :: post ∧
        kwMatches kws "report_2024.txt" = true ∧
        (∀ c' kws', (c', kws') ∈ pre → kwMatches kws' "report_2024.txt" = false)) :=
  ⟨resolver_first_match.1 _ ".q" "Zebra" "Zsub" rfl,
   resolver_first_match.2 _ "report_2024.txt" "Zulu" (by decide)⟩

/-- Claim C5 (amended): the self-move guard holds for every move performed
through `FileMover.move_item` — when the destination (target folder joined
with the item's base name) equals the item's absolute path, `move_item`
skips and performs no move. -/
theorem move_item_self_guard (item_path target_folder : List String) (isDir : Bool)
    (h : target_folder ++ [basename item_path] = item_path) :
    move_item item_path target_folder isDir = MoveAction.skipSelf := by
  simp only [move_item]
  rw [if_pos h.symm]

/-- Witness for C5 at a concrete self-referential move. -/
theorem move_item_self_guard_witness :
    (["home", "u", "Docs", "A"] ++ [basename ["home", "u", "Docs", "A", "x"]]
      = ["home", "u", "Docs", "A", "x"]) ∧
    move_item ["home", "u", "Docs", "A", "x"] ["home", "u", "Docs", "A"] false
      = MoveAction.skipSelf :=
  ⟨rfl, move_item_self_guard _ _ _ rfl⟩

/-- Counterexample to C5 as stated: the extension variant has no self-move
guard — `organise_downloads` on a file already sitting at its resolved
destination still emits the move attempt with equal source and destination
paths instead of skipping. -/
theorem organise_downloads_attempts_self_move :
    (organise_downloads ["d"] [("Documents & Data", [("Documents", [".pdf"])])]
        ["d", "Documents & Data", "Documents", "a.pdf"]).2
      = [FAction.ensureDir ["d", "Documents & Data", "Documents"],
         FAction.tryMove ["d", "Documents & Data", "Documents", "a.pdf"]
                         ["d", "Documents & Data", "Documents", "a.pdf"]] := by decide

/-- Claim C6 (amended): in the extension variant a single item's move
failure never aborts the run — the batch pass visits every file of the
listing exactly once, whatever the move-failure oracle does. -/
theorem organize_pass_visits_every_file (folder_to_watch : List String) (cats : ExtSchema)
    (files : List String) (fails : List String → List String → Bool) :
    ((organize_files_in_directory folder_to_watch cats files fails).1).map Prod.fst = files := by
  induction files generalizing cats with
  | nil => rfl
  | cons f rest ih =>
    simp [organize_files_in_directory, ih]

/-- Counterexample to C6 as stated: in the keyword variant a move failure is
not caught — with two matching items whose first move fails, the run aborts
with an error, having completed no move and never visiting the second item. -/
theorem organizeKw_move_failure_aborts :
    organizeKw ["h"] [("Gaming", ["game"])] [("game1.txt", false), ("game2.txt", false)]
        (fun _ => "") (fun s _ => s == ["h", "game1.txt"])
      = Except.error ([], "game1.txt") := rfl

/-- Claim C7 (amended): with the schema file absent, the extension variant's
`load_categories` returns the default schema and immediately saves it back,
while the keyword variant's `load_mapping` returns the default mapping
without writing anything back. -/
theorem load_defaults_on_absent_store :
    load_categories none = (default_categoriesR, [PAction.save default_categoriesR]) ∧
    load_mapping none = (kwDefaultMapping, []) :=
  ⟨rfl, rfl⟩

/-- Counterexample to C7 as stated: `load_mapping` performs no persistence
write on an absent store, and the extension variant's `.copy()` is shallow —
the loaded top-level table holds the very same inner-dictionary reference
for `"Other"` as the compiled-in default. -/
theorem load_mapping_no_writeback :
    (load_mapping none).2 = [] ∧
    dictGet? load_categories_absentH "Other" = dictGet? defaultTop "Other" :=
  ⟨rfl, rfl⟩

/-- Counterexample to C8: the compiled-in default schema object is mutated
at runtime — starting from an absent schema file (shallow copy of the
default) and processing one file with unmatched extension `.xyz`, the
default schema read back through the heap differs from its initial value. -/
theorem default_schema_mutated_by_learning :
    derefTop defaultTop
        (organise_downloadsH ["d"] load_categories_absentH defaultHeap ["d", "b.xyz"]).2.1
      ≠ derefTop defaultTop defaultHeap := by decide

/-- Claim C8 (amended): because the absent-file load copies only the
top-level table, the working schema aliases the default's per-category
sub-dictionaries, and learning one unmatched extension writes the new key
through the shared `"Other"` object into the compiled-in default. -/
theorem default_other_gains_learned_extension :
    dictGet? (derefTop defaultTop
        (organise_downloadsH ["d"] load_categories_absentH defaultHeap ["d", "b.xyz"]).2.1) "Other"
      = some [(".xyz", [])] ∧
    dictGet? (derefTop defaultTop defaultHeap) "Other" = some [] := by
  exact ⟨by decide, rfl⟩

/-- Claim C9: a processed file whose lower-cased extension matches no
subcategory list makes `organise_downloads` create or extend the `"Other"`
category keyed by that extension (with an empty list when the key is new,
the previous value when it already existed), save the schema, and attempt
the move into the `"Other"` folder. -/
theorem organise_downloads_learns_unmatched (folder_to_watch : List String)
    (cats : ExtSchema) (file_path : List String)
    (h : resolveExt cats (extOf file_path) = none) :
    ∃ subs,
      dictGet? (organise_downloads folder_to_watch cats file_path).1 "Other" = some subs ∧
      dictGet? subs (extOf file_path)
        = some ((dictGet? ((dictGet? cats "Other").getD []) (extOf file_path)).getD []) ∧
      FAction.save (organise_downloads folder_to_watch cats file_path).1
        ∈ (organise_downloads folder_to_watch cats file_path).2 ∧
      FAction.tryMove file_path (folder_to_watch ++ ["Other", basename file_path])
        ∈ (organise_downloads folder_to_watch cats file_path).2 := by
  have hod : organise_downloads folder_to_watch cats file_path
      = (learnOther cats (extOf file_path),
         [FAction.save (learnOther cats (extOf file_path)),
          FAction.ensureDir (folder_to_watch ++ ["Other"]),
          FAction.tryMove file_path (folder_to_watch ++ ["Other", basename file_path])]) := by
    simp [organise_downloads, h]
  obtain ⟨subs, h1, h2⟩ := learnOther_get cats (extOf file_path)
  rw [hod]
  exact ⟨subs, h1, h2, by simp, by simp⟩

/-- Witness for C9 at a concrete unknown extension. -/
theorem organise_downloads_learns_unmatched_witness :
    resolveExt [] (extOf ["d", "b.xyz"]) = none ∧
    ∃ subs,
      dictGet? (organise_downloads ["d"] [] ["d", "b.xyz"]).1 "Other" = some subs ∧
      dictGet? subs (extOf ["d", "b.xyz"])
        = some ((dictGet? ((dictGet? ([] : ExtSchema) "Other").getD []) (extOf ["d", "b.xyz"])).getD []) ∧
      FAction.save (organise_downloads ["d"] [] ["d", "b.xyz"]).1
        ∈ (organise_downloads ["d"] [] ["d", "b.xyz"]).2 ∧
      FAction.tryMove ["d", "b.xyz"] (["d"] ++ ["Other", basename ["d", "b.xyz"]])
        ∈ (organise_downloads ["d"] [] ["d", "b.xyz"]).2 :=
  ⟨rfl, organise_downloads_learns_unmatched ["d"] [] ["d", "b.xyz"] rfl⟩

/-- Claim C10: an extension learned into `"Other"` is only a key with an
empty list, which the membership-based resolver never matches — so a later
file with the same extension still resolves as unmatched and takes the
unmatched path again, saving the schema and moving to the `"Other"` folder. -/
theorem learned_extension_stays_unmatched (folder_to_watch : List String)
    (cats : ExtSchema) (file_path : List String)
    (h : resolveExt cats (extOf file_path) = none) :
    resolveExt (organise_downloads folder_to_watch cats file_path).1 (extOf file_path) = none ∧
    FAction.save (organise_downloads folder_to_watch
        (organise_downloads folder_to_watch cats file_path).1 file_path).1
      ∈ (organise_downloads folder_to_watch
          (organise_downloads folder_to_watch cats file_path).1 file_path).2 ∧
    FAction.tryMove file_path (folder_to_watch ++ ["Other", basename file_path])
      ∈ (organise_downloads folder_to_watch
          (organise_downloads folder_to_watch cats file_path).1 file_path).2 := by
  have hA := organise_downloads_unmatched_eq folder_to_watch cats file_path h
  have h2 : resolveExt ((organise_downloads folder_to_watch cats file_path).1)
      (extOf file_path) = none := by
    rw [hA]
    exact resolveExt_learnOther_none h
  have hB := organise_downloads_unmatched_eq folder_to_watch
    ((organise_downloads folder_to_watch cats file_path).1) file_path h2
  refine ⟨h2, ?_, ?_⟩ <;> rw [hB] <;> simp

/-- Witness for C10 at a concrete extension learned and met again. -/
theorem learned_extension_stays_unmatched_witness :
    resolveExt ([] : ExtSchema) (extOf ["d", "c.qqq"]) = none ∧
    (resolveExt (organise_downloads ["d"] [] ["d", "c.qqq"]).1 (extOf ["d", "c.qqq"]) = none ∧
     FAction.save (organise_downloads ["d"]
        (organise_downloads ["d"] [] ["d", "c.qqq"]).1 ["d", "c.qqq"]).1
      ∈ (organise_downloads ["d"]
          (organise_downloads ["d"] [] ["d", "c.qqq"]).1 ["d", "c.qqq"]).2 ∧
     FAction.tryMove ["d", "c.qqq"] (["d"] ++ ["Other", basename ["d", "c.qqq"]])
      ∈ (organise_downloads ["d"]
          (organise_downloads ["d"] [] ["d", "c.qqq"]).1 ["d", "c.qqq"]).2) :=
  ⟨rfl, learned_extension_stays_unmatched ["d"] [] ["d", "c.qqq"] rfl⟩
